import Mathlib

/-!
Shallow embedding of the dining-availability core of `mcp_server`
(`src/mcp_server/services/eats/utils.py`): the schedule evaluator
`is_location_open_now`, the clock formatter `format_time_12_hour`, the
range compactor `group_consecutive_days`, and the description handling of
`format_location_markdown`.

Conventions of the embedding:
* A raw JSON time record is a pair of dictionaries with optional integer
  fields; absent keys are modelled with `Option Int` (Python `.get(k, 0)`
  becomes `Option.getD 0`).
* Python list indexing `days[i]` (which admits negative indices and raises
  `IndexError` out of range) is modelled by `pyIndex`, returning `Option`.
  A function that can raise is embedded with an `Option` result, `none`
  standing for a raised exception.
* The wall-clock read of the source is factored out: `is_location_open_now`
  takes the current `(day, hour, minute)` triple explicitly, exactly the
  triple `get_current_day_and_time` would supply.
-/

set_option autoImplicit false

namespace McpEats

/-- One of the `start` / `end` dictionaries of a raw time record: the keys
`day`, `hour`, `minute` may each be absent. -/
structure TimeFields where
  day : Option Int
  hour : Option Int
  minute : Option Int
  deriving Repr, DecidableEq

/-- A raw time record `{"start": {...}, "end": {...}}`; either key may be
absent (Python then substitutes the empty dict `{}`). -/
structure TimeSlot where
  start : Option TimeFields
  stop : Option TimeFields
  deriving Repr, DecidableEq

/-- The empty dictionary `{}` that `time_slot.get("start", {})` falls back to. -/
def emptyFields : TimeFields := ⟨none, none, none⟩

/-- Python `d.get("day", 0) * 1440 + d.get("hour", 0) * 60 + d.get("minute", 0)`. -/
def weekMinutes (t : TimeFields) : Int :=
  t.day.getD 0 * 1440 + t.hour.getD 0 * 60 + t.minute.getD 0

/-- Python `time_slot.get("start", {})`. -/
def startFields (s : TimeSlot) : TimeFields := s.start.getD emptyFields

/-- Python `time_slot.get("end", {})`. -/
def endFields (s : TimeSlot) : TimeFields := s.stop.getD emptyFields

/-- The loop of `is_location_open_now`: scan the slots, returning `True` as
soon as one satisfies `start_minutes <= current_minutes < end_minutes`. -/
def openLoop (current_minutes : Int) : List TimeSlot → Bool
  | [] => false
  | slot :: rest =>
    if weekMinutes (startFields slot) ≤ current_minutes ∧
        current_minutes < weekMinutes (endFields slot) then
      true
    else
      openLoop current_minutes rest

/-- Function `is_location_open_now`, with the wall-clock triple passed explicitly:
`current_minutes = day * 1440 + hour * 60 + minute`, then the scan. -/
def is_location_open_now (day hour minute : Int) (location_times : List TimeSlot) : Bool :=
  openLoop (day * 1440 + hour * 60 + minute) location_times

/-- Python `f"{m:02d}"`: decimal rendering zero-padded to width two.  The sign
counts toward the width, so only the single digits `0..9` gain a leading zero;
`-5` already has width two and renders as `"-5"`. -/
def pad2 (m : Int) : String :=
  if 0 ≤ m ∧ m < 10 then "0" ++ toString m else toString m

/-- Function `format_time_12_hour`: 24-hour `(hour, minute)` to a 12-hour clock string
with `AM`/`PM` suffix. -/
def format_time_12_hour (hour minute : Int) : String :=
  if hour = 0 then "12:" ++ pad2 minute ++ " AM"
  else if hour < 12 then toString hour ++ ":" ++ pad2 minute ++ " AM"
  else if hour = 12 then "12:" ++ pad2 minute ++ " PM"
  else toString (hour - 12) ++ ":" ++ pad2 minute ++ " PM"

/-- The `days` table of `group_consecutive_days` (index 0 = Sunday). -/
def daysList : List String :=
  ["Sunday", "Monday", "Tuesday", "Wednesday", "Thursday", "Friday", "Saturday"]

/-- Python list indexing `xs[i]`: nonnegative indices count from the front,
negative indices from the back, anything out of range raises `IndexError`
(modelled as `none`). -/
def pyIndex (xs : List String) (i : Int) : Option String :=
  if 0 ≤ i then xs.get? i.toNat
  else if 0 ≤ i + xs.length then xs.get? (i + xs.length).toNat
  else none

/-- The grouping key of `group_consecutive_days`:
`f"{start_time} - {end_time}"` built from the two rendered clock strings. -/
def timeRange (slot : TimeSlot) : String :=
  format_time_12_hour ((startFields slot).hour.getD 0) ((startFields slot).minute.getD 0)
    ++ " - " ++
    format_time_12_hour ((endFields slot).hour.getD 0) ((endFields slot).minute.getD 0)

/-- Python `day_idx = start.get("day", 0)`: the day an interval is filed under. -/
def startDay (slot : TimeSlot) : Int := (startFields slot).day.getD 0

/-- One step of filling the insertion-ordered dict `day_groups`: append `idx`
to the list under `key`, creating the key at the end when absent. -/
def addToGroups (groups : List (String × List Int)) (key : String) (idx : Int) :
    List (String × List Int) :=
  match groups with
  | [] => [(key, [idx])]
  | (k, v) :: rest =>
    if k = key then (k, v ++ [idx]) :: rest
    else (k, v) :: addToGroups rest key idx

/-- The first loop of `group_consecutive_days`: build `day_groups`, a dict in
insertion order from each `time_range` string to the start days filed there. -/
def buildGroups : List TimeSlot → List (String × List Int) → List (String × List Int)
  | [], acc => acc
  | slot :: rest, acc => buildGroups rest (addToGroups acc (timeRange slot) (startDay slot))

/-- Python `day_indices.sort()`: ascending sort of the group's day indices. -/
def sortInts (xs : List Int) : List Int := List.insertionSort (· ≤ ·) xs

/-- Python `[days[i] for i in day_indices]`: each lookup may raise `IndexError`. -/
def mapPyIndex : List Int → Option (List String)
  | [] => some []
  | i :: is => do
    let n ← pyIndex daysList i
    let ns ← mapPyIndex is
    pure (n :: ns)

/-- Emitting one token for `current_group`: `"first - last"` when the run has
more than one day, the single day name otherwise. -/
def flushGroup (g : List String) : String :=
  if 1 < g.length then g.headD "" ++ " - " ++ g.getLastD ""
  else g.headD ""

/-- The scan of the generic merge path over the remaining `(index, name)`
pairs: extend `current_group` while indices increase by exactly one, otherwise
flush it into the accumulator and restart. -/
def mergeScan (prev : Int) (cur : List String) (acc : List String) :
    List (Int × String) → List String
  | [] => acc ++ [flushGroup cur]
  | (i, n) :: rest =>
    if i = prev + 1 then mergeScan i (cur ++ [n]) acc rest
    else mergeScan i [n] (acc ++ [flushGroup cur]) rest

/-- The `else` branch of the day-label computation: merge maximal runs of
consecutive indices and join the tokens with `", "`.  The empty case is
unreachable from `group_consecutive_days` (every group holds at least one
day). -/
def genericMerge (day_indices : List Int) (day_names : List String) : String :=
  match day_indices, day_names with
  | i :: is, n :: ns => String.intercalate ", " (mergeScan i [n] [] (is.zip ns))
  | _, _ => ""

/-- The day-label computation of `group_consecutive_days` for one group, after
sorting: single day, `len == 7`, the two special-cased lists, or the generic
merge. -/
def labelFor (day_indices : List Int) (day_names : List String) : String :=
  if day_names.length = 1 then day_names.headD ""
  else if day_names.length = 7 then "Daily"
  else if day_indices = [1, 2, 3, 4, 5] then "Monday - Friday"
  else if day_indices = [0, 6] then "Saturday - Sunday"
  else genericMerge day_indices day_names

/-- The second loop body of `group_consecutive_days` for one
`(time_range, day_indices)` entry: sort, look the day names up (an
out-of-range day raises), label, and render `f"{days_str}: {time_range}"`. -/
def formatGroup (kv : String × List Int) : Option String := do
  let sorted := sortInts kv.2
  let day_names ← mapPyIndex sorted
  pure (labelFor sorted day_names ++ ": " ++ kv.1)

/-- Function `group_consecutive_days`: `"Hours not available"` on the empty list,
otherwise the formatted groups joined with `" | "`.  `none` models a raised
exception (only possible through `days[i]` lookups). -/
def group_consecutive_days (location_times : List TimeSlot) : Option String :=
  if location_times = [] then some "Hours not available"
  else do
    let formatted ← (buildGroups location_times []).mapM formatGroup
    pure (String.intercalate " | " formatted)

/-- The description handling of `format_location_markdown` (its
`clean_desc` variable): show `short_desc` when non-empty (Python string
truthiness), else `description`; truncate to 147 characters plus `"..."`
when longer than 150. -/
def clean_desc (short_desc description : String) : String :=
  let d := if short_desc ≠ "" then short_desc else description
  if 150 < d.length then d.take 147 ++ "..." else d


/-- Reading the insertion-ordered dict: the value stored under `key`. -/
def lookupGroup (key : String) : List (String × List Int) → Option (List Int)
  | [] => none
  | (k, v) :: rest => if k = key then some v else lookupGroup key rest

/-- The keys of the dict, in insertion order. -/
def keysOf (groups : List (String × List Int)) : List String := groups.map Prod.fst

/-- Specification wording of insertion order: the distinct strings of a list
in the order each one is first encountered, given the strings already seen. -/
def firstOccur : List String → List String → List String
  | [], _ => []
  | k :: rest, seen =>
    if k ∈ seen then firstOccur rest seen
    else k :: firstOccur rest (seen ++ [k])

/-- Specification wording of one display group: the start days of exactly the
intervals whose formatted time-range string equals `key`, in input order. -/
def groupOf (times : List TimeSlot) (key : String) : List Int :=
  (times.filter fun s => decide (timeRange s = key)).map startDay

/-!
Spec-side definitions: written from the specification's wording, to be
compared with the functions embedded from the source above.
-/

/-- Specification wording of the 12-hour clock rendering: hour reduced mod 12
with `0` shown as `12` and no leading zero, minute always two digits, `AM` for
hours before noon and `PM` afterwards. -/
def clock12Spec (h m : Nat) : String :=
  (if h % 12 = 0 then "12" else toString (h % 12)) ++ ":" ++
    (if m < 10 then "0" ++ toString m else toString m) ++
    (if h < 12 then " AM" else " PM")

/-- Specification wording of the description handling: display the short
description when it is non-empty and the full description otherwise, and
truncate the chosen string, when longer than 150 characters, to its first 147
characters followed by an ellipsis. -/
def descSpec (short_desc description : String) : String :=
  let chosen := if short_desc ≠ "" then short_desc else description
  if 150 < chosen.length then chosen.take 147 ++ "..." else chosen

/-- A fully specified interval record, used for concrete scenarios. -/
def mkSlot (d1 h1 m1 d2 h2 m2 : Int) : TimeSlot :=
  ⟨some ⟨some d1, some h1, some m1⟩, some ⟨some d2, some h2, some m2⟩⟩

/-- Specification wording of one merged-run token: `"FirstDay - LastDay"` for
a run of more than one day, the single day name otherwise, with `f` giving
the day name of an index. -/
def tokenOf (f : Int → String) (first last : Int) : String :=
  if first = last then f first else f first ++ " - " ++ f last

/-- Specification wording of the scan over the remaining indices: the current
maximal run spans `first..last`, and only an index equal to `last + 1` extends
it (in particular day 6 never chains to day 0). -/
def runTokens (f : Int → String) : Int → Int → List Int → List String
  | first, last, [] => [tokenOf f first last]
  | first, last, i :: is =>
    if i = last + 1 then runTokens f first i is
    else tokenOf f first last :: runTokens f i i is

/-- Specification wording of the full merge: split the index list into maximal
runs of consecutive integers and render one token per run. -/
def mergedRunTokens (f : Int → String) : List Int → List String
  | [] => []
  | i :: is => runTokens f i i is

/-- Scenario schedule for the generic merge path: start days Saturday, Sunday
and Monday, all with identical (all-zero) clock fields. -/
def satSunMonSched : List TimeSlot :=
  [mkSlot 6 0 0 6 0 0, mkSlot 0 0 0 0 0 0, mkSlot 1 0 0 1 0 0]

/-- Scenario schedule whose single group covers the day set `{0, 6}` but with
three entries: Sunday 7:00–21:00, Saturday 7:00–21:00, and a second interval
starting Saturday 7:00 with the same clock strings but ending on Sunday. -/
def weekendDupSched : List TimeSlot :=
  [mkSlot 0 7 0 0 21 0, mkSlot 6 7 0 6 21 0, mkSlot 6 7 0 0 21 0]

/-- A record whose start dictionary holds only `day: 7`, one past the last
valid index of the seven-day table. -/
def day7Slot : TimeSlot := ⟨some ⟨some 7, none, none⟩, none⟩

end McpEats

/-!
Helper lemmas shared by the claim theorems.
-/

theorem McpEats.openLoop_eq_true_iff (c : Int) (l : List TimeSlot) :
    openLoop c l = true ↔
      ∃ slot ∈ l, weekMinutes (startFields slot) ≤ c ∧ c < weekMinutes (endFields slot) := by
  induction l with
  | nil => simp [openLoop]
  | cons slot rest ih =>
    by_cases h : weekMinutes (startFields slot) ≤ c ∧ c < weekMinutes (endFields slot)
    · simp [openLoop, h]
    · simp only [openLoop, if_neg h, ih]
      constructor
      · rintro ⟨s, hs, hp⟩
        exact ⟨s, List.mem_cons_of_mem _ hs, hp⟩
      · rintro ⟨s, hs, hp⟩
        rcases List.mem_cons.mp hs with rfl | hs
        · exact absurd hp h
        · exact ⟨s, hs, hp⟩

theorem McpEats.lookupGroup_addToGroups_same (g : List (String × List Int)) (key : String) (idx : Int) :
    lookupGroup key (addToGroups g key idx) =
      some ((lookupGroup key g).getD [] ++ [idx]) := by
  induction g with
  | nil => simp [addToGroups, lookupGroup]
  | cons p rest ih =>
    obtain ⟨k, v⟩ := p
    by_cases hk : k = key
    · subst hk
      simp [addToGroups, lookupGroup]
    · simp [addToGroups, lookupGroup, hk, ih]

theorem McpEats.lookupGroup_addToGroups_other (g : List (String × List Int)) (k key : String)
    (idx : Int) (hne : k ≠ key) :
    lookupGroup k (addToGroups g key idx) = lookupGroup k g := by
  induction g with
  | nil => simp [addToGroups, lookupGroup, Ne.symm hne]
  | cons p rest ih =>
    obtain ⟨k', v⟩ := p
    by_cases hk : k' = key
    · subst hk
      simp [addToGroups, lookupGroup, Ne.symm hne]
    · simp [addToGroups, lookupGroup, hk, ih]

theorem McpEats.lookupGroup_buildGroups_getD (ts : List TimeSlot) :
    ∀ (acc : List (String × List Int)) (key : String),
      (lookupGroup key (buildGroups ts acc)).getD [] =
        (lookupGroup key acc).getD [] ++ groupOf ts key := by
  induction ts with
  | nil => intro acc key; simp [buildGroups, groupOf]
  | cons slot rest ih =>
    intro acc key
    by_cases hk : timeRange slot = key
    · have h1 := ih (addToGroups acc (timeRange slot) (startDay slot)) key
      rw [buildGroups, h1, hk, lookupGroup_addToGroups_same]
      simp [groupOf, List.filter_cons, hk]
    · have h1 := ih (addToGroups acc (timeRange slot) (startDay slot)) key
      rw [buildGroups, h1, lookupGroup_addToGroups_other _ _ _ _ (fun h => hk h.symm)]
      simp [groupOf, List.filter_cons, hk]

theorem McpEats.lookupGroup_buildGroups_eq_none (ts : List TimeSlot) :
    ∀ (acc : List (String × List Int)) (key : String),
      (lookupGroup key (buildGroups ts acc) = none ↔
        lookupGroup key acc = none ∧ groupOf ts key = []) := by
  induction ts with
  | nil => intro acc key; simp [buildGroups, groupOf]
  | cons slot rest ih =>
    intro acc key
    by_cases hk : timeRange slot = key
    · rw [buildGroups, ih]
      subst hk
      rw [lookupGroup_addToGroups_same]
      simp [groupOf, List.filter_cons]
    · rw [buildGroups, ih, lookupGroup_addToGroups_other _ _ _ _ (fun h => hk h.symm)]
      simp [groupOf, List.filter_cons, hk]



/-- C1: `is_location_open_now` is true exactly when some interval of the
schedule satisfies `start.weekMinutes ≤ now.weekMinutes < end.weekMinutes`
(half-open); in particular a single Monday 7:00–21:00 interval is open at
Monday 20:59 and closed at Monday 21:00. -/
theorem McpEats.isOpen_iff_exists_interval :
    (∀ (d h m : Int) (schedule : List McpEats.TimeSlot),
        McpEats.is_location_open_now d h m schedule = true ↔
          ∃ slot ∈ schedule,
            McpEats.weekMinutes (McpEats.startFields slot) ≤ d * 1440 + h * 60 + m ∧
              d * 1440 + h * 60 + m < McpEats.weekMinutes (McpEats.endFields slot)) ∧
    McpEats.is_location_open_now 1 20 59 [McpEats.mkSlot 1 7 0 1 21 0] = true ∧
    McpEats.is_location_open_now 1 21 0 [McpEats.mkSlot 1 7 0 1 21 0] = false := by
  refine ⟨fun d h m schedule => ?_, by decide, by decide⟩
  exact McpEats.openLoop_eq_true_iff (d * 1440 + h * 60 + m) schedule

/-- C2: on the empty schedule, `is_location_open_now` is false for every query
instant and `group_consecutive_days` returns the sentinel
`"Hours not available"`. -/
theorem McpEats.empty_schedule_defaults :
    (∀ d h m : Int, McpEats.is_location_open_now d h m [] = false) ∧
    McpEats.group_consecutive_days [] = some "Hours not available" := by
  exact ⟨fun _ _ _ => rfl, rfl⟩

/-- C9: `is_location_open_now` returns the same boolean on any permutation of
the interval list. -/
theorem McpEats.isOpen_perm_invariant
    (d h m : Int) (l1 l2 : List McpEats.TimeSlot) (hperm : l1.Perm l2) :
    McpEats.is_location_open_now d h m l1 = McpEats.is_location_open_now d h m l2 := by
  have h1 := McpEats.openLoop_eq_true_iff (d * 1440 + h * 60 + m) l1
  have h2 := McpEats.openLoop_eq_true_iff (d * 1440 + h * 60 + m) l2
  apply Bool.eq_iff_iff.mpr
  unfold McpEats.is_location_open_now
  rw [h1, h2]
  constructor
  · rintro ⟨s, hs, hp⟩; exact ⟨s, hperm.mem_iff.mp hs, hp⟩
  · rintro ⟨s, hs, hp⟩; exact ⟨s, hperm.mem_iff.mpr hs, hp⟩

/-- Witness for C9 at a concrete permutation. -/
theorem McpEats.isOpen_perm_invariant_witness :
    McpEats.is_location_open_now 1 20 59 [McpEats.mkSlot 1 7 0 1 21 0, McpEats.mkSlot 2 7 0 2 21 0]
      = McpEats.is_location_open_now 1 20 59
          [McpEats.mkSlot 2 7 0 2 21 0, McpEats.mkSlot 1 7 0 1 21 0] :=
  McpEats.isOpen_perm_invariant 1 20 59 _ _ (List.Perm.swap _ _ _)

/-- C6: for every hour in `[0,23]` and minute in `[0,59]`,
`format_time_12_hour` renders the 12-hour clock form with `AM`/`PM` suffix,
no leading zero on the hour and a two-digit minute; in particular the five
listed sample points. -/
theorem McpEats.format_time_12_hour_spec :
    (∀ h : Nat, h < 24 → ∀ m : Nat, m < 60 →
        McpEats.format_time_12_hour (h : Int) (m : Int) = McpEats.clock12Spec h m) ∧
    McpEats.format_time_12_hour 0 0 = "12:00 AM" ∧
    McpEats.format_time_12_hour 12 0 = "12:00 PM" ∧
    McpEats.format_time_12_hour 13 5 = "1:05 PM" ∧
    McpEats.format_time_12_hour 13 30 = "1:30 PM" ∧
    McpEats.format_time_12_hour 23 59 = "11:59 PM" := by
  refine ⟨?_, by decide, by decide, by decide, by decide, by decide⟩
  decide

/-- Witness for C6 discharging the range hypotheses at `(13, 30)`. -/
theorem McpEats.format_time_12_hour_spec_witness :
    McpEats.format_time_12_hour ((13 : Nat) : Int) ((30 : Nat) : Int) =
      McpEats.clock12Spec 13 30 :=
  McpEats.format_time_12_hour_spec.1 13 (by decide) 30 (by decide)

/-- C10: the description rendered by `format_location_markdown` is the short
description when non-empty and the full description otherwise, truncated past
150 characters to the first 147 plus an ellipsis, so the result never exceeds
150 characters. -/
theorem McpEats.clean_desc_spec :
    ∀ short_desc description : String,
      McpEats.clean_desc short_desc description = McpEats.descSpec short_desc description ∧
        (McpEats.clean_desc short_desc description).length ≤ 150 := by
  intro s d
  refine ⟨rfl, ?_⟩
  unfold McpEats.clean_desc
  set c := if s ≠ "" then s else d with hc
  by_cases h : 150 < c.length
  · simp only [if_pos h]
    rw [String.length_append]
    have htake : (c.take 147).length = min 147 c.length := by
      rw [String.take_eq]
      show (c.data.take 147).length = min 147 c.data.length
      exact List.length_take 147 c.data
    have hdots : ("..." : String).length = 3 := rfl
    rw [htake, hdots]
    have hmin : min 147 c.length ≤ 147 := min_le_left _ _
    omega
  · simp only [if_neg h]
    omega

theorem McpEats.keysOf_addToGroups (g : List (String × List Int)) (key : String) (idx : Int) :
    keysOf (addToGroups g key idx) =
      if key ∈ keysOf g then keysOf g else keysOf g ++ [key] := by
  induction g with
  | nil => simp [addToGroups, keysOf]
  | cons p rest ih =>
    obtain ⟨k, v⟩ := p
    by_cases hk : k = key
    · subst hk
      simp [addToGroups, keysOf]
    · by_cases hmem : key ∈ List.map Prod.fst rest
      · simp only [keysOf, List.map_cons] at ih ⊢
        simp [addToGroups, hk, Ne.symm hk, hmem, ih]
      · simp only [keysOf, List.map_cons] at ih ⊢
        simp [addToGroups, hk, Ne.symm hk, hmem, ih]

theorem McpEats.keysOf_buildGroups (ts : List TimeSlot) :
    ∀ acc : List (String × List Int),
      keysOf (buildGroups ts acc) =
        keysOf acc ++ firstOccur (ts.map timeRange) (keysOf acc) := by
  induction ts with
  | nil => intro acc; simp [buildGroups, firstOccur]
  | cons slot rest ih =>
    intro acc
    rw [List.map_cons]
    by_cases hk : timeRange slot ∈ keysOf acc
    · rw [buildGroups, ih, keysOf_addToGroups, if_pos hk]
      simp only [firstOccur, if_pos hk]
    · rw [buildGroups, ih, keysOf_addToGroups, if_neg hk]
      simp only [firstOccur, if_neg hk]
      rw [List.append_assoc, List.singleton_append]

theorem McpEats.firstOccur_nodup_and_not_seen (l : List String) :
    ∀ seen, (firstOccur l seen).Nodup ∧ ∀ k ∈ firstOccur l seen, k ∉ seen := by
  induction l with
  | nil => intro seen; simp [firstOccur]
  | cons a rest ih =>
    intro seen
    by_cases ha : a ∈ seen
    · simpa only [firstOccur, if_pos ha] using ih seen
    · simp only [firstOccur, if_neg ha]
      obtain ⟨hnd, hns⟩ := ih (seen ++ [a])
      refine ⟨List.nodup_cons.mpr ⟨fun hmem => ?_, hnd⟩, ?_⟩
      · have := hns a hmem
        simp at this
      · intro k hk
        rcases List.mem_cons.mp hk with rfl | hk
        · exact ha
        · intro hkseen
          exact hns k hk (by simp [hkseen])

theorem McpEats.assoc_eq_map_keys (g : List (String × List Int))
    (hnd : (keysOf g).Nodup) :
    g = (keysOf g).map (fun k => (k, (lookupGroup k g).getD [])) := by
  induction g with
  | nil => rfl
  | cons p rest ih =>
    obtain ⟨k, v⟩ := p
    have hnd2 : (k :: List.map Prod.fst rest).Nodup := by
      simpa [keysOf] using hnd
    have hk : k ∉ List.map Prod.fst rest := (List.nodup_cons.mp hnd2).1
    have hrest := ih (by simpa [keysOf] using (List.nodup_cons.mp hnd2).2)
    simp only [keysOf, List.map_cons]
    congr 1
    · simp [lookupGroup]
    · have hcongr : ∀ k2 ∈ List.map Prod.fst rest,
          (k2, (lookupGroup k2 ((k, v) :: rest)).getD []) =
            (k2, (lookupGroup k2 rest).getD []) := by
        intro k2 hk2
        have hne : ¬ k = k2 := fun h => hk (h ▸ hk2)
        simp [lookupGroup, hne]
      rw [List.map_congr_left hcongr]
      simpa [keysOf] using hrest

theorem McpEats.buildGroups_eq (ts : List TimeSlot) :
    buildGroups ts [] =
      (firstOccur (ts.map timeRange) []).map (fun key => (key, groupOf ts key)) := by
  have hkeys : keysOf (buildGroups ts []) = firstOccur (ts.map timeRange) [] := by
    simpa [keysOf] using keysOf_buildGroups ts []
  have hnd : (keysOf (buildGroups ts [])).Nodup := by
    rw [hkeys]
    exact (firstOccur_nodup_and_not_seen (ts.map timeRange) []).1
  have hrec := assoc_eq_map_keys (buildGroups ts []) hnd
  rw [hrec, hkeys]
  apply List.map_congr_left
  intro k _
  have hgetD := lookupGroup_buildGroups_getD ts [] k
  simp only [lookupGroup, Option.getD_none, List.nil_append] at hgetD
  rw [hgetD]

/-- C7: `group_consecutive_days` partitions intervals by string equality of
their formatted time-range: the dict entry under a key is exactly the list of
start days (and only start days, even for cross-day intervals) of the
intervals whose rendered `"startClock - endClock"` string equals that key, in
input order; keys with no matching interval are absent. -/
theorem McpEats.grouping_by_time_range_string :
    ∀ (times : List McpEats.TimeSlot) (key : String),
      McpEats.lookupGroup key (McpEats.buildGroups times []) =
        if McpEats.groupOf times key = [] then none
        else some (McpEats.groupOf times key) := by
  intro times key
  rcases h : McpEats.lookupGroup key (McpEats.buildGroups times []) with _ | v
  · have hg := ((McpEats.lookupGroup_buildGroups_eq_none times [] key).mp h).2
    rw [if_pos hg]
  · have hgetD := McpEats.lookupGroup_buildGroups_getD times [] key
    rw [h] at hgetD
    simp only [McpEats.lookupGroup, Option.getD_none, Option.getD_some,
      List.nil_append] at hgetD
    subst hgetD
    have hne : ¬ McpEats.groupOf times key = [] := by
      intro hg
      have := (McpEats.lookupGroup_buildGroups_eq_none times [] key).mpr ⟨rfl, hg⟩
      rw [h] at this
      exact Option.noConfusion this
    rw [if_neg hne]

theorem McpEats.mapM_loop_map_eq {α β γ : Type} (g : α → β) (f : β → Option γ) (l : List α) :
    ∀ acc : List γ,
      List.mapM.loop f (l.map g) acc = List.mapM.loop (fun a => f (g a)) l acc := by
  induction l with
  | nil => intro acc; rfl
  | cons a rest ih =>
    intro acc
    simp only [List.map_cons, List.mapM.loop]
    cases hfa : f (g a) with
    | none => rfl
    | some b =>
      show List.mapM.loop f (rest.map g) (b :: acc) = _
      exact ih (b :: acc)

theorem McpEats.mapM_map_eq {α β γ : Type} (g : α → β) (f : β → Option γ) (l : List α) :
    (l.map g).mapM f = l.mapM (fun a => f (g a)) := by
  unfold List.mapM
  exact McpEats.mapM_loop_map_eq g f l []

theorem McpEats.option_bind_pure_eq_map {α β : Type} (g : α → β) (x : Option α) :
    (x.bind fun a => some (g a)) = x.map g := by
  cases x <;> rfl

/-- C8: on a non-empty schedule, `group_consecutive_days` emits one segment
per distinct formatted time-range string, joined with `" | "`, in the order
each string is first encountered in the interval list — no alphabetic or
chronological sort across groups. -/
theorem McpEats.compact_join_first_encounter
    (times : List McpEats.TimeSlot) (hne : times ≠ []) :
    McpEats.group_consecutive_days times =
      ((McpEats.firstOccur (times.map McpEats.timeRange) []).mapM
          (fun key => McpEats.formatGroup (key, McpEats.groupOf times key))).map
        (String.intercalate " | ") := by
  unfold McpEats.group_consecutive_days
  rw [if_neg hne, McpEats.buildGroups_eq times, McpEats.mapM_map_eq]
  exact McpEats.option_bind_pure_eq_map _ _

/-- Witness for C8 at a one-interval schedule. -/
theorem McpEats.compact_join_first_encounter_witness :
    McpEats.group_consecutive_days [McpEats.mkSlot 1 7 0 1 21 0] =
      ((McpEats.firstOccur ([McpEats.mkSlot 1 7 0 1 21 0].map McpEats.timeRange) []).mapM
          (fun key =>
            McpEats.formatGroup (key, McpEats.groupOf [McpEats.mkSlot 1 7 0 1 21 0] key))).map
        (String.intercalate " | ") :=
  McpEats.compact_join_first_encounter [McpEats.mkSlot 1 7 0 1 21 0] (by decide)

theorem McpEats.pyIndex_isSome_of_range (i : Int) (h1 : -7 ≤ i) (h2 : i ≤ 6) :
    (McpEats.pyIndex McpEats.daysList i).isSome := by
  interval_cases i <;> decide

theorem McpEats.mapPyIndex_isSome (l : List Int) (h : ∀ i ∈ l, -7 ≤ i ∧ i ≤ 6) :
    (McpEats.mapPyIndex l).isSome := by
  induction l with
  | nil => rfl
  | cons i rest ih =>
    obtain ⟨h1, h2⟩ := h i (List.mem_cons_self i rest)
    obtain ⟨n, hn⟩ := Option.isSome_iff_exists.mp (McpEats.pyIndex_isSome_of_range i h1 h2)
    obtain ⟨ns, hns⟩ :=
      Option.isSome_iff_exists.mp (ih fun j hj => h j (List.mem_cons_of_mem _ hj))
    simp [McpEats.mapPyIndex, hn, hns]

theorem McpEats.formatGroup_isSome (key : String) (l : List Int)
    (h : ∀ i ∈ l, -7 ≤ i ∧ i ≤ 6) :
    (McpEats.formatGroup (key, l)).isSome := by
  have hmem : ∀ i ∈ McpEats.sortInts l, -7 ≤ i ∧ i ≤ 6 := fun i hi =>
    h i ((List.perm_insertionSort (· ≤ ·) l).mem_iff.mp hi)
  obtain ⟨ns, hns⟩ := Option.isSome_iff_exists.mp (McpEats.mapPyIndex_isSome _ hmem)
  simp [McpEats.formatGroup, hns]

theorem McpEats.mapM_isSome {α γ : Type} (f : α → Option γ) (l : List α)
    (h : ∀ a ∈ l, (f a).isSome) : (l.mapM f).isSome := by
  induction l with
  | nil => rfl
  | cons a rest ih =>
    obtain ⟨b, hb⟩ := Option.isSome_iff_exists.mp (h a (List.mem_cons_self a rest))
    obtain ⟨bs, hbs⟩ :=
      Option.isSome_iff_exists.mp (ih fun x hx => h x (List.mem_cons_of_mem _ hx))
    unfold List.mapM at hbs
    rw [List.mapM_cons]
    simp [hb, hbs]

/-- Counterexample to C4 as stated: on an interval whose start dictionary
holds the out-of-range day `7`, `group_consecutive_days` raises `IndexError`
(modelled as `none`) instead of degrading to a default value. -/
theorem McpEats.compact_raises_on_day7 :
    McpEats.group_consecutive_days [McpEats.day7Slot] = none := by decide

/-- C4 as amended: `is_location_open_now` is total on every interval list
(missing fields read as 0 never make it raise), and `group_consecutive_days`
never raises provided every interval's start day — absent read as 0 — lies in
the Python index range `[-7, 6]` of the seven-day table; records with missing
keys behave exactly like all-zero records. -/
theorem McpEats.compact_no_raise_in_range :
    (∀ times : List McpEats.TimeSlot,
        (∀ slot ∈ times, -7 ≤ McpEats.startDay slot ∧ McpEats.startDay slot ≤ 6) →
          (McpEats.group_consecutive_days times).isSome) ∧
    (∀ dd hh mm : Option Int,
        McpEats.weekMinutes ⟨dd, hh, mm⟩ =
          McpEats.weekMinutes ⟨some (dd.getD 0), some (hh.getD 0), some (mm.getD 0)⟩) ∧
    McpEats.group_consecutive_days [(⟨none, none⟩ : McpEats.TimeSlot)] =
      McpEats.group_consecutive_days [McpEats.mkSlot 0 0 0 0 0 0] := by
  refine ⟨?_, fun dd hh mm => rfl, by decide⟩
  intro times h
  rcases eq_or_ne times [] with rfl | hne
  · rfl
  · unfold McpEats.group_consecutive_days
    rw [if_neg hne]
    have hmem : ∀ kv ∈ McpEats.buildGroups times [], (McpEats.formatGroup kv).isSome := by
      intro kv hkv
      rw [McpEats.buildGroups_eq times] at hkv
      obtain ⟨key, hkey, rfl⟩ := List.mem_map.mp hkv
      apply McpEats.formatGroup_isSome
      intro i hi
      simp only [McpEats.groupOf] at hi
      obtain ⟨slot, hslot, rfl⟩ := List.mem_map.mp hi
      exact h slot (List.mem_of_mem_filter hslot)
    obtain ⟨fs, hfs⟩ :=
      Option.isSome_iff_exists.mp (McpEats.mapM_isSome McpEats.formatGroup _ hmem)
    unfold List.mapM at hfs
    simp [hfs]

/-- Witness for C4's amended theorem at a concrete in-range schedule. -/
theorem McpEats.compact_no_raise_in_range_witness :
    (McpEats.group_consecutive_days [McpEats.mkSlot 1 7 0 1 21 0]).isSome :=
  McpEats.compact_no_raise_in_range.1 [McpEats.mkSlot 1 7 0 1 21 0] (by decide)

/-- Counterexample to C3 as stated: in `weekendDupSched` the single group's
day indices form exactly the set `{0, 6}`, yet the label is not
`"Saturday - Sunday"` — the code compares the sorted index list (here
`[0, 6, 6]`, three entries) against `[0, 6]`, not the day set. -/
theorem McpEats.weekend_label_counterexample :
    McpEats.groupOf McpEats.weekendDupSched "7:00 AM - 9:00 PM" = [0, 6, 6] ∧
    ([(0 : Int), 6, 6].toFinset = ({0, 6} : Finset Int)) ∧
    McpEats.group_consecutive_days McpEats.weekendDupSched =
      some "Sunday, Saturday, Saturday: 7:00 AM - 9:00 PM" ∧
    ("Sunday, Saturday, Saturday: 7:00 AM - 9:00 PM" : String) ≠
      "Saturday - Sunday: 7:00 AM - 9:00 PM" := by
  refine ⟨by decide, by decide, by decide, by decide⟩

/-- C3 as amended: the label rules are keyed on the sorted index list, not the
day set — a group with exactly seven entries is labelled `"Daily"`, sorted
index list exactly `[1, 2, 3, 4, 5]` gives `"Monday - Friday"`, exactly
`[0, 6]` gives `"Saturday - Sunday"`, and a one-entry group is labelled with
its single day name. -/
theorem McpEats.day_label_rules :
    ∀ (idx : List Int) (names : List String), names.length = idx.length →
      ((idx.length = 7 → McpEats.labelFor idx names = "Daily") ∧
       (idx = [1, 2, 3, 4, 5] → McpEats.labelFor idx names = "Monday - Friday") ∧
       (idx = [0, 6] → McpEats.labelFor idx names = "Saturday - Sunday") ∧
       (∀ n, names = [n] → McpEats.labelFor idx names = n)) := by
  intro idx names hlen
  refine ⟨?_, ?_, ?_, ?_⟩
  · intro h7
    have h7n : names.length = 7 := by omega
    simp [McpEats.labelFor, h7n]
  · rintro rfl
    have h5 : names.length = 5 := by simpa using hlen
    simp [McpEats.labelFor, h5]
  · rintro rfl
    have h2 : names.length = 2 := by simpa using hlen
    simp [McpEats.labelFor, h2]
  · rintro n rfl
    simp [McpEats.labelFor]

/-- Witness for C3's amended label rules at the weekend pair. -/
theorem McpEats.day_label_rules_witness :
    McpEats.labelFor [0, 6] ["Sunday", "Saturday"] = "Saturday - Sunday" :=
  (McpEats.day_label_rules [0, 6] ["Sunday", "Saturday"] rfl).2.2.1 rfl

theorem McpEats.headD_append_left {l l2 : List String} (d : String) (h : l ≠ []) :
    (l ++ l2).headD d = l.headD d := by
  cases l with
  | nil => exact absurd rfl h
  | cons a t => rfl

theorem McpEats.flushGroup_eq_tokenOf (f : Int → String) (first last : Int)
    (cur : List String) (_hne : cur ≠ []) (hh : cur.headD "" = f first)
    (hl : cur.getLastD "" = f last) (hlen : 1 < cur.length ↔ first ≠ last) :
    McpEats.flushGroup cur = McpEats.tokenOf f first last := by
  by_cases heq : first = last
  · have hnot : ¬ 1 < cur.length := fun hgt => (hlen.mp hgt) heq
    rw [McpEats.flushGroup, if_neg hnot, McpEats.tokenOf, if_pos heq, hh]
  · have hgt : 1 < cur.length := hlen.mpr heq
    rw [McpEats.flushGroup, if_pos hgt, McpEats.tokenOf, if_neg heq, hh, hl]

theorem McpEats.mergeScan_eq_runTokens (f : Int → String) (rest : List Int) :
    ∀ (first last : Int) (cur acc : List String),
      cur ≠ [] → cur.headD "" = f first → cur.getLastD "" = f last →
      (1 < cur.length ↔ first ≠ last) → first ≤ last →
      McpEats.mergeScan last cur acc (rest.zip (rest.map f)) =
        acc ++ McpEats.runTokens f first last rest := by
  induction rest with
  | nil =>
    intro first last cur acc hne hh hl hlen hfl
    show McpEats.mergeScan last cur acc [] = _
    rw [McpEats.mergeScan, McpEats.runTokens,
      McpEats.flushGroup_eq_tokenOf f first last cur hne hh hl hlen]
  | cons i is ih =>
    intro first last cur acc hne hh hl hlen hfl
    rw [List.map_cons, List.zip_cons_cons]
    by_cases hi : i = last + 1
    · rw [McpEats.mergeScan, if_pos hi, McpEats.runTokens, if_pos hi]
      refine ih first i (cur ++ [f i]) acc (by simp) ?_ ?_ ?_ (by omega)
      · rw [McpEats.headD_append_left _ hne, hh]
      · simp [List.getLastD_concat]
      · constructor
        · intro _
          omega
        · intro _
          have : 1 ≤ cur.length := List.length_pos.mpr hne
          simp only [List.length_append, List.length_singleton]
          omega
    · rw [McpEats.mergeScan, if_neg hi, McpEats.runTokens, if_neg hi]
      rw [ih i i [f i] (acc ++ [McpEats.flushGroup cur]) (by simp) rfl rfl (by simp) le_rfl]
      rw [McpEats.flushGroup_eq_tokenOf f first last cur hne hh hl hlen,
        List.append_assoc, List.singleton_append]

/-- C5: the generic merge path is non-circular.  For every day-name function
and index list, `genericMerge` renders exactly the maximal runs of consecutive
integers of the scanned list (runs of length one stay a single day name),
joined with `", "`; the group's indices are sorted ascending beforehand; and
the start-day set Saturday/Sunday/Monday renders as
`"Sunday - Monday, Saturday"`. -/
theorem McpEats.generic_merge_runs :
    (∀ (f : Int → String) (idx : List Int),
        McpEats.genericMerge idx (idx.map f) =
          String.intercalate ", " (McpEats.mergedRunTokens f idx)) ∧
    (∀ l : List Int,
        List.Sorted (· ≤ ·) (McpEats.sortInts l) ∧ (McpEats.sortInts l).Perm l) ∧
    McpEats.group_consecutive_days McpEats.satSunMonSched =
      some "Sunday - Monday, Saturday: 12:00 AM - 12:00 AM" := by
  refine ⟨?_, ?_, by decide⟩
  · intro f idx
    cases idx with
    | nil => rfl
    | cons i is =>
      rw [List.map_cons]
      show String.intercalate ", " (McpEats.mergeScan i [f i] [] (is.zip (is.map f))) = _
      rw [McpEats.mergeScan_eq_runTokens f is i i [f i] [] (by simp) rfl rfl (by simp) le_rfl]
      rfl
  · intro l
    exact ⟨List.sorted_insertionSort _ l, List.perm_insertionSort _ l⟩
